import Mathlib

/-!
Shallow embedding of the core of faiss-1.2.1 (`src/Index.h`, `src/IndexFlat.cpp`):
the flat brute-force index, the two-stage refine index and the specialized 1-D
index.  Vector coordinates (C `float`) are modelled as rationals; machine
indices (`idx_t = long`) as `Int`/`Nat`; out-of-bounds accesses and thrown
errors are made explicit through `Except`.  Parts of the repository that are
referenced but whose sources are not present (`Heap.h`, `utils.h`,
`FaissAssert.h`) are modelled from the spec; each such definition carries a
doc comment starting with `Modelled from the spec:`.
-/

/-- MetricType from Index.h:42-45: `METRIC_INNER_PRODUCT` or `METRIC_L2`. -/
inductive Metric where
  | innerProduct
  | l2
deriving DecidableEq

/-- Extended scalar: a finite rational value or one of the two infinities
(`1.0 / 0.0` padding of IndexFlat1D::search, and the heap sentinels). -/
inductive ExtQ where
  | negInf
  | fin (q : ℚ)
  | posInf
deriving DecidableEq

/-- Linear-order comparison on extended scalars. -/
def ExtQ.ble : ExtQ → ExtQ → Bool
  | .negInf, _ => true
  | _, .posInf => true
  | .fin a, .fin b => decide (a ≤ b)
  | _, _ => false

/-- Squared L2 distance of two coordinate lists (the `METRIC_L2` kernel). -/
def l2sqr (x y : List ℚ) : ℚ :=
  ((x.zip y).map (fun p => (p.1 - p.2) * (p.1 - p.2))).sum

/-- Inner-product score of two coordinate lists (the `METRIC_INNER_PRODUCT` kernel). -/
def ipScore (x y : List ℚ) : ℚ :=
  ((x.zip y).map (fun p => p.1 * p.2)).sum

/-- Metric value dispatch, as in IndexFlat::search (IndexFlat.cpp:54-79). -/
def metricVal : Metric → List ℚ → List ℚ → ℚ
  | .l2, x, y => l2sqr x y
  | .innerProduct, x, y => ipScore x y

/-- Worst-possible value under a metric: the padding sentinel used when fewer
than `k` candidates exist (`+inf` for L2 distances, `-inf` for IP scores). -/
def sentinel : Metric → ExtQ
  | .l2 => .posInf
  | .innerProduct => .negInf

/-- Better-or-equal comparison under the metric polarity: ascending distance
for L2 (`CMax` heap), descending score for inner product (`CMin` heap). -/
def mLE : Metric → ExtQ → ExtQ → Bool
  | .l2, a, b => a.ble b
  | .innerProduct, a, b => b.ble a

/-- Ordering on (distance, label) result pairs induced by the metric. -/
def pairLE (m : Metric) (a b : ExtQ × Int) : Prop :=
  mLE m a.1 b.1 = true

instance (m : Metric) : DecidableRel (pairLE m) :=
  fun a b => by unfold pairLE; infer_instance

/-- Modelled from the spec: the TopKSelector of §4.3 (Heap.h `heap_heapify` /
`heap_addn` / `heap_reorder` are not under src/).  Seeded and extended with all
candidates and finalized, it yields the k best candidates fully ordered
best-to-worst; slots beyond the number of candidates keep the heap's neutral
value: the metric's worst sentinel paired with label -1 (§3 SearchResult).
Ties are kept in first-seen order (the spec fixes no tie policy; a stable sort
is the deterministic refinement used throughout this embedding). -/
def topK (m : Metric) (k : Nat) (cands : List (ExtQ × Int)) : List (ExtQ × Int) :=
  (cands.insertionSort (pairLE m)).take k ++
    List.replicate (k - cands.length) (sentinel m, -1)

/-- Candidate stream of a brute-force scan: metric value of the query against
every stored vector, labelled by storage position. -/
def knnCandidates (m : Metric) (xb : List (List ℚ)) (x : List ℚ) : List (ExtQ × Int) :=
  (List.range xb.length).map (fun j => (ExtQ.fin (metricVal m x (xb.getD j [])), (j : Int)))

/-- Modelled from the spec: `knn_inner_product` / `knn_L2sqr` (utils.h, not
under src/) as called by IndexFlat::search (IndexFlat.cpp:42-80): scan all
`ntotal` stored vectors and keep the top k per query (§4.2, §4.3). -/
def IndexFlat.searchQuery (m : Metric) (xb : List (List ℚ)) (k : Nat) (x : List ℚ) :
    List (ExtQ × Int) :=
  topK m k (knnCandidates m xb x)

/-- IndexFlat::search over a query batch (row-major batch = list of queries). -/
def IndexFlat.search (m : Metric) (xb : List (List ℚ)) (k : Nat) (qs : List (List ℚ)) :
    List (List (ExtQ × Int)) :=
  qs.map (IndexFlat.searchQuery m xb k)

/-- IndexFlat::add (IndexFlat.cpp:30-33): append vectors at the end. -/
def IndexFlat.add (xb vs : List (List ℚ)) : List (List ℚ) :=
  xb ++ vs

/-- IndexFlat::reconstruct (IndexFlat.cpp:142-145): copy of the vector stored
at position `key` (`none` when the read would be out of bounds). -/
def IndexFlat.reconstruct (xb : List (List ℚ)) (key : Nat) : Option (List ℚ) :=
  xb.get? key

/-- Compaction loop of IndexFlat::remove_ids (IndexFlat.cpp:119-138) at vector
granularity: iterate labels left to right; a selected vector is dropped, an
unselected one is moved down to the write cursor (the overlap-safe `memmove`
of `d` floats), which preserves relative order. -/
def removeIdsGo {α : Type} (sel : Nat → Bool) : Nat → List α → List α
  | _, [] => []
  | i, v :: rest =>
    if sel i then removeIdsGo sel (i+1) rest
    else v :: removeIdsGo sel (i+1) rest

/-- IndexFlat::remove_ids: returns the compacted store (the buffer resized to
the new `ntotal`) and the number of removed vectors `ntotal - j`. -/
def IndexFlat.removeIds {α : Type} (sel : Int → Bool) (xb : List α) : List α × Nat :=
  (removeIdsGo (fun i => sel (i : Int)) 0 xb,
   xb.length - (removeIdsGo (fun i => sel (i : Int)) 0 xb).length)

/-- Number of selected labels among `start, start+1, ..., start+len-1`. -/
def countSelFrom (sel : Nat → Bool) : Nat → Nat → Nat
  | _, 0 => 0
  | s, l+1 => (if sel s then 1 else 0) + countSelFrom sel (s+1) l

/-- Errors surfaced by the embedding: `invariantViolation` for
`FAISS_THROW_IF_NOT` (FaissAssert.h, always active), `assertViolation` for a
failed C `assert` (active only when assertions are compiled in),
`oobAccess` for an out-of-bounds buffer read (undefined behavior in C). -/
inductive SearchErr where
  | invariantViolation
  | assertViolation
  | oobAccess
  | fuelExhausted
deriving DecidableEq

/-- C conversion of a (rational-modelled) float to an integer type:
truncation toward zero, as in `idx_t (k * k_factor)` (IndexFlat.cpp:248). -/
def ratTrunc (q : ℚ) : Int :=
  q.num.tdiv (q.den : Int)

/-- Number of coarse candidates per query: `idx_t k_base = idx_t (k * k_factor)`
(IndexFlat.cpp:248), clamped at 0 from below (a negative count never arises
for the documented `k_factor ≥ 1`). -/
def kBaseOf (k : Nat) (kFactor : ℚ) : Nat :=
  (ratTrunc ((k : ℚ) * kFactor)).toNat

/-- Modelled from the spec: `fvec_L2sqr_by_idx` / `fvec_inner_products_by_idx`
(utils.h, not under src/) as called by compute_distance_subset
(IndexFlat.cpp:97-117): the exact metric value for one (query, label) pair
(§4.2).  A label of -1 (a padding slot) keeps the metric's worst sentinel,
the value such a slot already carries (§3). -/
def compute_distance_one (m : Metric) (store : List (List ℚ)) (x : List ℚ) (l : Int) : ExtQ :=
  if l < 0 then sentinel m
  else .fin (metricVal m x (store.getD l.toNat []))

/-- Modelled from the spec: reorder_2_heaps (IndexFlat.cpp:218-237) seeds a
size-k selector from the first k of the `k_base` exactly-recomputed
candidates, bulk-inserts the remaining `k_base - k`, and finalizes to the
ordered top-k (§4.4 step 5); the heap phases are from Heap.h (not under src/). -/
def reorder2heaps (m : Metric) (k : Nat) (cands : List (ExtQ × Int)) : List (ExtQ × Int) :=
  (cands.insertionSort (pairLE m)).take k

/-- IndexRefineFlat::search (IndexFlat.cpp:243-286) for one query.
`assertsOn` reflects whether C `assert` is compiled in (debug build);
`baseSearch kb` is what `base_index->search` writes for this query at
candidate count `kb`. -/
def IndexRefineFlat.searchQuery (assertsOn : Bool) (m : Metric) (isTrained : Bool)
    (ntotal : Nat) (store : List (List ℚ)) (kFactor : ℚ)
    (baseSearch : Nat → List (ExtQ × Int)) (k : Nat) (x : List ℚ) :
    Except SearchErr (List (ExtQ × Int)) :=
  if ¬ isTrained then .error .invariantViolation
  else
    let baseRes := baseSearch (kBaseOf k kFactor)
    if assertsOn ∧
        ¬ (baseRes.all fun p => decide (-1 ≤ p.2) && decide (p.2 < (ntotal : Int))) then
      .error .assertViolation
    else
      .ok (reorder2heaps m k (baseRes.map fun p => (compute_distance_one m store x p.2, p.2)))

/-- Sequencing of per-query results: any failure aborts the whole search call. -/
def exceptAll {σ β : Type} (f : σ → Except SearchErr β) : List σ → Except SearchErr (List β)
  | [] => .ok []
  | x :: r =>
    match f x, exceptAll f r with
    | .ok y, .ok ys => .ok (y :: ys)
    | .error e, _ => .error e
    | _, .error e => .error e

/-- IndexRefineFlat::search over a query batch. -/
def IndexRefineFlat.search (assertsOn : Bool) (m : Metric) (isTrained : Bool)
    (ntotal : Nat) (store : List (List ℚ)) (kFactor : ℚ)
    (baseSearch : List ℚ → Nat → List (ExtQ × Int)) (k : Nat) (qs : List (List ℚ)) :
    Except SearchErr (List (List (ExtQ × Int))) :=
  exceptAll (fun x => IndexRefineFlat.searchQuery assertsOn m isTrained ntotal store
    kFactor (baseSearch x) k x) qs

/-- Modelled from the spec: the caller-supplied coarse index of RefineIndex is
an arbitrary index obeying the VectorIndex contract (§4.1): `add` appends the
n vectors with labels `ntotal..ntotal+n-1`, `train` prepares but does not
change the population, `reset` clears it. -/
structure CoarseIndex where
  store : List (List ℚ)
  isTrained : Bool
deriving DecidableEq

def CoarseIndex.add (b : CoarseIndex) (vs : List (List ℚ)) : CoarseIndex :=
  { b with store := b.store ++ vs }

def CoarseIndex.reset (b : CoarseIndex) : CoarseIndex :=
  { b with store := [] }

def CoarseIndex.train (b : CoarseIndex) : CoarseIndex :=
  { b with isTrained := true }

/-- State of an IndexRefineFlat composite (IndexFlat.h / IndexFlat.cpp:177-213):
the borrowed coarse index, the internal exact store, and the inherited
`ntotal` / `is_trained` fields. -/
structure IndexRefineFlat where
  base : CoarseIndex
  refineStore : List (List ℚ)
  ntotal : Nat
  isTrained : Bool
deriving DecidableEq

/-- IndexRefineFlat::IndexRefineFlat (IndexFlat.cpp:177-186): takes over the
coarse index, copies its `is_trained`, and fails (`FAISS_THROW_IF_NOT_MSG`)
unless the coarse index is empty. -/
def IndexRefineFlat.make (b : CoarseIndex) : Except SearchErr IndexRefineFlat :=
  if b.store.length ≠ 0 then .error .invariantViolation
  else .ok { base := b, refineStore := [], ntotal := 0, isTrained := b.isTrained }

/-- Mutating operations of the composite. -/
inductive RefineOp where
  | train (vs : List (List ℚ))
  | add (vs : List (List ℚ))
  | reset

/-- IndexRefineFlat::train / add / reset (IndexFlat.cpp:195-213). `add` fails
(`FAISS_THROW_IF_NOT`) when not trained, otherwise appends to the coarse index
and the internal exact store in lockstep and refreshes `ntotal`. -/
def IndexRefineFlat.apply (s : IndexRefineFlat) : RefineOp → Except SearchErr IndexRefineFlat
  | .train _ => .ok { s with base := s.base.train, isTrained := true }
  | .add vs =>
    if ¬ s.isTrained then .error .invariantViolation
    else .ok { base := s.base.add vs, refineStore := s.refineStore ++ vs,
               ntotal := (s.refineStore ++ vs).length, isTrained := s.isTrained }
  | .reset => .ok { base := s.base.reset, refineStore := [], ntotal := 0,
                    isTrained := s.isTrained }

/-- Run a sequence of train/add/reset operations. -/
def IndexRefineFlat.applyAll (s : IndexRefineFlat) : List RefineOp → Except SearchErr IndexRefineFlat
  | [] => .ok s
  | op :: r =>
    match s.apply op with
    | .ok s1 => s1.applyAll r
    | .error e => .error e

/-- State of an IndexFlat1D (IndexFlat.cpp:300-329): 1-D store (d = 1, so the
buffer is one value per vector), sort permutation, and the continuous-update
configuration flag. -/
structure IndexFlat1D where
  xb : List ℚ
  perm : List Nat
  continuousUpdate : Bool
deriving DecidableEq

/-- Modelled from the spec: `fvec_argsort` (utils.h, not under src/) as called
by IndexFlat1D::update_permutation (IndexFlat.cpp:308-316): a permutation of
the labels along which the stored values are non-decreasing (§3); ties keep
insertion order (the deterministic refinement used by this embedding). -/
def argsortVals (xs : List ℚ) : List Nat :=
  (List.range xs.length).insertionSort (fun a b => xs.getD a 0 ≤ xs.getD b 0)

/-- IndexFlat1D::update_permutation (IndexFlat.cpp:308-316). -/
def IndexFlat1D.update_permutation (s : IndexFlat1D) : IndexFlat1D :=
  { s with perm := argsortVals s.xb }

/-- IndexFlat1D::add (IndexFlat.cpp:318-323): append, then recompute the
permutation only under continuous update. -/
def IndexFlat1D.add (s : IndexFlat1D) (vs : List ℚ) : IndexFlat1D :=
  if s.continuousUpdate then
    IndexFlat1D.update_permutation { s with xb := s.xb ++ vs }
  else { s with xb := s.xb ++ vs }

/-- IndexFlat1D::reset (IndexFlat.cpp:325-329). -/
def IndexFlat1D.reset (s : IndexFlat1D) : IndexFlat1D :=
  { s with xb := [], perm := [] }

/-- IndexFlat::remove_ids as inherited by IndexFlat1D: compacts the store and
leaves the permutation untouched. -/
def IndexFlat1D.remove_ids (s : IndexFlat1D) (sel : Int → Bool) : IndexFlat1D × Nat :=
  ({ s with xb := (IndexFlat.removeIds sel s.xb).1 }, (IndexFlat.removeIds sel s.xb).2)

/-- Read `xb[perm[i]]` together with the label `perm[i]` (IndexFlat1D::search
inner accesses); fails on any out-of-bounds index, which is undefined
behavior in the C source. -/
def readPair (xs : List ℚ) (pm : List Nat) (i : Int) : Except SearchErr (Nat × ℚ) :=
  if i < 0 then .error .oobAccess
  else
    match pm.get? i.toNat with
    | none => .error .oobAccess
    | some p =>
      match xs.get? p with
      | none => .error .oobAccess
      | some v => .ok (p, v)

/-- `finish_right` loop of IndexFlat1D::search (IndexFlat.cpp:389-402): grow to
the right from `i1`; once past the end, pad with distance `1.0/0.0` and
label -1.  First argument of the recursion is `k - wp`, the slots still to
fill. -/
def finishRight (xs : List ℚ) (pm : List Nat) (q : ℚ) :
    Nat → Int → Except SearchErr (List (ExtQ × Int))
  | 0, _ => .ok []
  | w+1, b =>
    if b < (xs.length : Int) then
      match readPair xs pm b with
      | .error e => .error e
      | .ok pv =>
        match finishRight xs pm q w (b + 1) with
        | .error e => .error e
        | .ok rest => .ok ((ExtQ.fin (pv.2 - q), (pv.1 : Int)) :: rest)
    else
      match finishRight xs pm q w b with
      | .error e => .error e
      | .ok rest => .ok ((ExtQ.posInf, -1) :: rest)

/-- `finish_left` loop of IndexFlat1D::search (IndexFlat.cpp:404-416): grow to
the left from `i0`; once past the beginning, pad with `1.0/0.0` and label -1. -/
def finishLeft (xs : List ℚ) (pm : List Nat) (q : ℚ) :
    Nat → Int → Except SearchErr (List (ExtQ × Int))
  | 0, _ => .ok []
  | w+1, a =>
    if 0 ≤ a then
      match readPair xs pm a with
      | .error e => .error e
      | .ok pv =>
        match finishLeft xs pm q w (a - 1) with
        | .error e => .error e
        | .ok rest => .ok ((ExtQ.fin (q - pv.2), (pv.1 : Int)) :: rest)
    else
      match finishLeft xs pm q w a with
      | .error e => .error e
      | .ok rest => .ok ((ExtQ.posInf, -1) :: rest)

/-- Main frontier-expansion loop of IndexFlat1D::search (IndexFlat.cpp:371-387):
with both frontiers alive, emit whichever candidate is nearer (the right one
on an exact tie, since the code tests `q - xleft < xright - q`), then advance
that frontier; when a frontier runs out, jump to the corresponding finish
loop. -/
def expandLoop (xs : List ℚ) (pm : List Nat) (q : ℚ) :
    Nat → Int → Int → Except SearchErr (List (ExtQ × Int))
  | 0, _, _ => .ok []
  | w+1, a, b =>
    match readPair xs pm a with
    | .error e => .error e
    | .ok pl =>
      match readPair xs pm b with
      | .error e => .error e
      | .ok pr =>
        if q - pl.2 < pr.2 - q then
          if a - 1 < 0 then
            match finishRight xs pm q w b with
            | .error e => .error e
            | .ok rest => .ok ((ExtQ.fin (q - pl.2), (pl.1 : Int)) :: rest)
          else
            match expandLoop xs pm q w (a - 1) b with
            | .error e => .error e
            | .ok rest => .ok ((ExtQ.fin (q - pl.2), (pl.1 : Int)) :: rest)
        else
          if (xs.length : Int) ≤ b + 1 then
            match finishLeft xs pm q w a with
            | .error e => .error e
            | .ok rest => .ok ((ExtQ.fin (pr.2 - q), (pr.1 : Int)) :: rest)
          else
            match expandLoop xs pm q w a (b + 1) with
            | .error e => .error e
            | .ok rest => .ok ((ExtQ.fin (pr.2 - q), (pr.1 : Int)) :: rest)

/-- Binary-search loop of IndexFlat1D::search (IndexFlat.cpp:362-366): narrow
`(i0, i1)` while `i0 + 1 < i1`.  The extra fuel argument only bounds the
iteration count; `xs.length` iterations always suffice since the interval
halves each time, so `fuelExhausted` is unreachable from the entry call. -/
def bsearchLoop (xs : List ℚ) (pm : List Nat) (q : ℚ) :
    Nat → Int → Int → Except SearchErr (Int × Int)
  | 0, a, b => if a + 1 < b then .error .fuelExhausted else .ok (a, b)
  | f+1, a, b =>
    if a + 1 < b then
      match readPair xs pm ((a + b) / 2) with
      | .error e => .error e
      | .ok pv =>
        if pv.2 ≤ q then bsearchLoop xs pm q f ((a + b) / 2) b
        else bsearchLoop xs pm q f a ((a + b) / 2)
    else .ok (a, b)

/-- IndexFlat1D::search (IndexFlat.cpp:331-420) for one query value `q`:
boundary checks, binary search, then frontier expansion. -/
def IndexFlat1D.searchQuery (xs : List ℚ) (pm : List Nat) (k : Nat) (q : ℚ) :
    Except SearchErr (List (ExtQ × Int)) :=
  match readPair xs pm 0 with
  | .error e => .error e
  | .ok pv0 =>
    if q < pv0.2 then finishRight xs pm q k 0
    else
      match readPair xs pm ((xs.length : Int) - 1) with
      | .error e => .error e
      | .ok pvl =>
        if pvl.2 ≤ q then finishLeft xs pm q k ((xs.length : Int) - 1)
        else
          match bsearchLoop xs pm q xs.length 0 (xs.length : Int) with
          | .error e => .error e
          | .ok ab => expandLoop xs pm q k ab.1 ab.2

/-- IndexFlat1D::search over a query batch, with the always-active
`FAISS_THROW_IF_NOT_MSG (perm.size() == ntotal)` state check
(IndexFlat.cpp:338-339). -/
def IndexFlat1D.search (s : IndexFlat1D) (k : Nat) (qs : List ℚ) :
    Except SearchErr (List (List (ExtQ × Int))) :=
  if s.perm.length ≠ s.xb.length then .error .invariantViolation
  else exceptAll (IndexFlat1D.searchQuery s.xb s.perm k) qs

/-- Validity of the sort permutation for the current contents: the spec's
`Sorted` state (§4.5): values are non-decreasing along the permutation. -/
def permSorted (xs : List ℚ) (pm : List Nat) : Prop :=
  List.Chain' (· ≤ ·) (pm.map fun p => xs.getD p 0)

instance (xs : List ℚ) (pm : List Nat) : Decidable (permSorted xs pm) := by
  unfold permSorted
  infer_instance

/-- Distances (first components) of a result slice. -/
def distsOf (res : List (ExtQ × Int)) : List ExtQ :=
  res.map Prod.fst

/-- Claim C2's ordering property of one k-slot result slice: non-decreasing
distances under L2, non-increasing scores under inner product. -/
def orderedByMetric : Metric → List (ExtQ × Int) → Prop
  | .l2, res => List.Sorted (fun a b => ExtQ.ble a b = true) (distsOf res)
  | .innerProduct, res => List.Sorted (fun a b => ExtQ.ble b a = true) (distsOf res)

/-- Reachable IndexFlat1D state with a stale permutation of matching size:
add two values, sort, remove everything, then add two values in a different
value order without refreshing; `perm.size() == ntotal` holds again while the
permutation no longer sorts the store. -/
def staleState : IndexFlat1D :=
  ((((IndexFlat1D.add ⟨[], [], false⟩ [7, 1]).update_permutation).remove_ids
    (fun _ => true)).1).add [1, 7]

/-! ### Order facts about `ExtQ` and the metric comparison -/

theorem ExtQ.ble_refl (a : ExtQ) : a.ble a = true := by
  cases a <;> simp [ExtQ.ble]

theorem ExtQ.ble_posInf (a : ExtQ) : a.ble .posInf = true := by
  cases a <;> simp [ExtQ.ble]

theorem ExtQ.negInf_ble (a : ExtQ) : ExtQ.ble .negInf a = true := by
  cases a <;> simp [ExtQ.ble]

theorem ExtQ.ble_trans {a b c : ExtQ} (h1 : a.ble b = true) (h2 : b.ble c = true) :
    a.ble c = true := by
  cases a <;> cases b <;> cases c <;> simp_all [ExtQ.ble]
  exact le_trans h1 h2

theorem ExtQ.ble_total (a b : ExtQ) : a.ble b = true ∨ b.ble a = true := by
  cases a <;> cases b <;> simp_all [ExtQ.ble]
  exact le_total _ _

theorem ExtQ.fin_ble_fin {a b : ℚ} : (ExtQ.fin a).ble (ExtQ.fin b) = true ↔ a ≤ b := by
  simp [ExtQ.ble]

theorem mLE_refl (m : Metric) (a : ExtQ) : mLE m a a = true := by
  cases m <;> simp [mLE, ExtQ.ble_refl]

theorem mLE_trans (m : Metric) {a b c : ExtQ} (h1 : mLE m a b = true)
    (h2 : mLE m b c = true) : mLE m a c = true := by
  cases m <;> simp only [mLE] at *
  · exact ExtQ.ble_trans h2 h1
  · exact ExtQ.ble_trans h1 h2

theorem mLE_total (m : Metric) (a b : ExtQ) : mLE m a b = true ∨ mLE m b a = true := by
  cases m <;> simp only [mLE]
  · exact (ExtQ.ble_total b a)
  · exact (ExtQ.ble_total a b)

theorem mLE_sentinel (m : Metric) (a : ExtQ) : mLE m a (sentinel m) = true := by
  cases m <;> simp [mLE, sentinel, ExtQ.ble_posInf, ExtQ.negInf_ble]

instance (m : Metric) : IsTrans (ExtQ × Int) (pairLE m) :=
  ⟨fun _ _ _ h1 h2 => mLE_trans m h1 h2⟩

instance (m : Metric) : IsTotal (ExtQ × Int) (pairLE m) :=
  ⟨fun a b => mLE_total m a.1 b.1⟩

theorem pairLE_sentinel (m : Metric) (p : ExtQ × Int) : pairLE m p (sentinel m, -1) :=
  mLE_sentinel m p.1

/-! ### Sortedness of flat search results -/

theorem sorted_replicate {α : Type} (r : α → α → Prop) (n : Nat) (x : α) (h : r x x) :
    List.Sorted r (List.replicate n x) := by
  induction n with
  | zero => simp [List.Sorted]
  | succ n ih =>
    rw [List.replicate_succ, List.sorted_cons]
    refine ⟨fun b hb => ?_, ih⟩
    rw [List.eq_of_mem_replicate hb]
    exact h

theorem sorted_topK (m : Metric) (k : Nat) (cands : List (ExtQ × Int)) :
    List.Sorted (pairLE m) (topK m k cands) := by
  unfold topK
  refine List.pairwise_append.mpr
    ⟨List.Pairwise.sublist (List.take_sublist _ _) (List.sorted_insertionSort _ _), ?_, ?_⟩
  · exact sorted_replicate _ _ _ (mLE_refl m _)
  · intro a _ b hb
    rw [List.eq_of_mem_replicate hb]
    exact pairLE_sentinel m a

theorem sorted_searchQuery (m : Metric) (xb : List (List ℚ)) (k : Nat) (x : List ℚ) :
    List.Sorted (pairLE m) (IndexFlat.searchQuery m xb k x) :=
  sorted_topK m k _

theorem sorted_reorder2heaps (m : Metric) (k : Nat) (cands : List (ExtQ × Int)) :
    List.Sorted (pairLE m) (reorder2heaps m k cands) :=
  List.Pairwise.sublist (List.take_sublist _ _) (List.sorted_insertionSort _ _)

theorem orderedByMetric_of_sorted (m : Metric) (res : List (ExtQ × Int))
    (h : List.Sorted (pairLE m) res) : orderedByMetric m res := by
  cases m <;> simp only [orderedByMetric, distsOf] <;>
    exact List.Pairwise.map Prod.fst (fun a b hab => hab) h

/-! ### Length and membership of flat search results -/

theorem searchQuery_length (m : Metric) (xb : List (List ℚ)) (k : Nat) (x : List ℚ) :
    (IndexFlat.searchQuery m xb k x).length = k := by
  simp only [IndexFlat.searchQuery, topK, List.length_append, List.length_take,
    List.length_insertionSort, List.length_replicate, knnCandidates, List.length_map,
    List.length_range]
  omega

theorem mem_searchQuery {m : Metric} {xb : List (List ℚ)} {k : Nat} {x : List ℚ}
    {p : ExtQ × Int} (hp : p ∈ IndexFlat.searchQuery m xb k x) :
    p ∈ knnCandidates m xb x ∨ p = (sentinel m, -1) := by
  rcases List.mem_append.mp hp with h | h
  · exact Or.inl ((List.perm_insertionSort (pairLE m) _).mem_iff.mp (List.mem_of_mem_take h))
  · exact Or.inr (List.eq_of_mem_replicate h)

theorem mem_knnCandidates {m : Metric} {xb : List (List ℚ)} {x : List ℚ}
    {p : ExtQ × Int} (hp : p ∈ knnCandidates m xb x) :
    ∃ j : Nat, j < xb.length ∧ p = (ExtQ.fin (metricVal m x (xb.getD j [])), (j : Int)) := by
  rcases List.mem_map.mp hp with ⟨j, hj, rfl⟩
  exact ⟨j, List.mem_range.mp hj, rfl⟩

/-! ### Refine over an exact flat coarse index (claim C1) -/

theorem kBaseOf_one (k : Nat) : kBaseOf k 1 = k := by
  simp [kBaseOf, ratTrunc, Rat.num_natCast, Rat.den_natCast]

theorem searchQuery_label_range {m : Metric} {xb : List (List ℚ)} {k : Nat} {x : List ℚ}
    {p : ExtQ × Int} (hp : p ∈ IndexFlat.searchQuery m xb k x) :
    -1 ≤ p.2 ∧ p.2 < (xb.length : Int) := by
  rcases mem_searchQuery hp with h | h
  · rcases mem_knnCandidates h with ⟨j, hj, rfl⟩
    refine ⟨le_trans (by norm_num) (Int.natCast_nonneg j), ?_⟩
    show (j : Int) < (xb.length : Int)
    exact_mod_cast hj
  · rw [h]
    exact ⟨le_refl _, lt_of_lt_of_le (by norm_num) (Int.natCast_nonneg _)⟩

theorem compute_distance_one_searchQuery {m : Metric} {xb : List (List ℚ)} {k : Nat}
    {x : List ℚ} {p : ExtQ × Int} (hp : p ∈ IndexFlat.searchQuery m xb k x) :
    compute_distance_one m xb x p.2 = p.1 := by
  rcases mem_searchQuery hp with h | h
  · rcases mem_knnCandidates h with ⟨j, hj, rfl⟩
    simp [compute_distance_one]
  · rw [h]
    simp [compute_distance_one]

theorem refine_searchQuery_flatBase (assertsOn : Bool) (m : Metric) (xb : List (List ℚ))
    (k : Nat) (x : List ℚ) :
    IndexRefineFlat.searchQuery assertsOn m true xb.length xb 1
      (fun kb => IndexFlat.searchQuery m xb kb x) k x
      = .ok (IndexFlat.searchQuery m xb k x) := by
  have hall : (IndexFlat.searchQuery m xb k x).all
      (fun p => decide (-1 ≤ p.2) && decide (p.2 < (xb.length : Int))) = true := by
    rw [List.all_eq_true]
    intro p hp
    have := searchQuery_label_range hp
    simp [this.1, this.2]
  have hmap : (IndexFlat.searchQuery m xb k x).map
      (fun p => (compute_distance_one m xb x p.2, p.2)) = IndexFlat.searchQuery m xb k x := by
    have h1 : ∀ p ∈ IndexFlat.searchQuery m xb k x,
        (compute_distance_one m xb x p.2, p.2) = p := by
      intro p hp
      rw [compute_distance_one_searchQuery hp]
    calc (IndexFlat.searchQuery m xb k x).map (fun p => (compute_distance_one m xb x p.2, p.2))
        = (IndexFlat.searchQuery m xb k x).map (fun p => p) := List.map_congr_left h1
      _ = IndexFlat.searchQuery m xb k x := List.map_id' _
  simp only [IndexRefineFlat.searchQuery, kBaseOf_one, hall, hmap, reorder2heaps,
    not_true, and_false, if_false, ite_false, eq_self_iff_true, Bool.not_true,
    Bool.not_eq_true]
  rw [List.Sorted.insertionSort_eq (sorted_searchQuery m xb k x),
    List.take_of_length_le (le_of_eq (searchQuery_length m xb k x))]

theorem exceptAll_ok {σ β : Type} (f : σ → Except SearchErr β) (g : σ → β) (l : List σ)
    (h : ∀ x ∈ l, f x = .ok (g x)) : exceptAll f l = .ok (l.map g) := by
  induction l with
  | nil => rfl
  | cons a r ih =>
    simp only [exceptAll, List.map_cons]
    rw [h a (List.mem_cons_self a r), ih (fun x hx => h x (List.mem_cons_of_mem a hx))]

/-- C1: for every dataset and query batch, a RefineIndex with `k_factor = 1`
whose coarse index is an exact flat search over the same vectors in the same
order returns exactly the labels and distances of the direct flat search
(whether or not assertions are compiled in). -/
theorem claim_C1 (assertsOn : Bool) (m : Metric) (xb : List (List ℚ)) (k : Nat)
    (qs : List (List ℚ)) :
    IndexRefineFlat.search assertsOn m true xb.length xb 1
      (fun x kb => IndexFlat.searchQuery m xb kb x) k qs
      = .ok (IndexFlat.search m xb k qs) := by
  unfold IndexRefineFlat.search IndexFlat.search
  exact exceptAll_ok _ _ qs (fun x _ => refine_searchQuery_flatBase assertsOn m xb k x)

/-! ### Sortedness of IndexFlat1D::search results (claim C2) -/

/-- Value stored at slot `i` of the permutation (with default 0 out of range,
matching the `getD`-style reads of the search embedding). -/
def pmVal (xs : List ℚ) (pm : List Nat) (i : Nat) : ℚ :=
  xs.getD (pm.getD i 0) 0

theorem readPair_ok {xs : List ℚ} {pm : List Nat} {i : Int} {pv : Nat × ℚ}
    (h : readPair xs pm i = .ok pv) :
    0 ≤ i ∧ i.toNat < pm.length ∧ pv.2 = pmVal xs pm i.toNat := by
  unfold readPair at h
  by_cases h0 : i < 0
  · rw [if_pos h0] at h
    exact absurd h (by simp)
  · rw [if_neg h0] at h
    cases hp : pm.get? i.toNat with
    | none =>
      rw [hp] at h
      exact absurd h (by simp)
    | some p =>
      rw [hp] at h
      dsimp only [] at h
      cases hv : xs.get? p with
      | none =>
        rw [hv] at h
        exact absurd h (by simp)
      | some v =>
        rw [hv] at h
        dsimp only [] at h
        have hpv : (p, v) = pv := Except.ok.inj h
        refine ⟨not_lt.mp h0, ?_, ?_⟩
        · exact (List.get?_eq_some.mp hp).choose
        · rw [← hpv]
          simp only [pmVal, List.getD_eq_get?, hp, hv, Option.getD_some]

theorem pmVal_mono {xs : List ℚ} {pm : List Nat} (hs : permSorted xs pm)
    {i j : Nat} (hij : i ≤ j) (hj : j < pm.length) :
    pmVal xs pm i ≤ pmVal xs pm j := by
  rcases eq_or_lt_of_le hij with rfl | hlt
  · exact le_refl _
  · have hp : List.Pairwise (· ≤ ·) (pm.map fun p => xs.getD p 0) :=
      List.chain'_iff_pairwise.mp hs
    have hi : i < pm.length := lt_trans hlt hj
    have h2 := List.pairwise_iff_getElem.mp hp i j (by simpa using hi) (by simpa using hj) hlt
    simp only [List.getElem_map] at h2
    simpa [pmVal, List.getD_eq_getElem, hi, hj] using h2

/-- Lower bound on the distances of a result tail. -/
def LBnd (d : ExtQ) (l : List (ExtQ × Int)) : Prop :=
  ∀ y ∈ l, d.ble y.1 = true

theorem pairLE_l2_iff {a b : ExtQ × Int} : pairLE .l2 a b ↔ a.1.ble b.1 = true :=
  Iff.rfl

theorem LBnd_mono {d d' : ExtQ} {l : List (ExtQ × Int)} (h : d.ble d' = true)
    (hl : LBnd d' l) : LBnd d l :=
  fun y hy => ExtQ.ble_trans h (hl y hy)

theorem finishRight_pad {xs : List ℚ} {pm : List Nat} {q : ℚ} {b : Int}
    (hb : ¬ b < (xs.length : Int)) (w : Nat) :
    finishRight xs pm q w b = .ok (List.replicate w (ExtQ.posInf, -1)) := by
  induction w with
  | zero => simp [finishRight]
  | succ w ih =>
    rw [finishRight, if_neg hb, ih]
    simp [List.replicate_succ]

theorem finishLeft_pad {xs : List ℚ} {pm : List Nat} {q : ℚ} {a : Int}
    (ha : ¬ 0 ≤ a) (w : Nat) :
    finishLeft xs pm q w a = .ok (List.replicate w (ExtQ.posInf, -1)) := by
  induction w with
  | zero => simp [finishLeft]
  | succ w ih =>
    rw [finishLeft, if_neg ha, ih]
    simp [List.replicate_succ]

theorem finishRight_sorted {xs : List ℚ} {pm : List Nat} {q : ℚ} (hs : permSorted xs pm) :
    ∀ (w : Nat) (b : Int) (l : List (ExtQ × Int)),
      finishRight xs pm q w b = .ok l →
      List.Sorted (pairLE .l2) l ∧
        ∀ pv : Nat × ℚ, readPair xs pm b = .ok pv → LBnd (ExtQ.fin (pv.2 - q)) l := by
  intro w
  induction w with
  | zero =>
    intro b l h
    rw [finishRight] at h
    cases Except.ok.inj h
    exact ⟨List.sorted_nil, fun pv _ y hy => absurd hy (List.not_mem_nil y)⟩
  | succ w ih =>
    intro b l h
    by_cases hb : b < (xs.length : Int)
    · rw [finishRight, if_pos hb] at h
      cases hr : readPair xs pm b with
      | error e =>
        rw [hr] at h
        exact absurd h (by simp)
      | ok pv0 =>
        rw [hr] at h
        dsimp only [] at h
        cases hrest : finishRight xs pm q w (b+1) with
        | error e =>
          rw [hrest] at h
          exact absurd h (by simp)
        | ok rest =>
          rw [hrest] at h
          dsimp only [] at h
          cases Except.ok.inj h
          obtain ⟨hb0, hblen, hval⟩ := readPair_ok hr
          have ihrest := ih (b+1) rest hrest
          have hLB : LBnd (ExtQ.fin (pv0.2 - q)) rest := by
            by_cases hb1 : b + 1 < (xs.length : Int)
            · cases hr1 : readPair xs pm (b+1) with
              | ok pv1 =>
                have hle : pv0.2 ≤ pv1.2 := by
                  obtain ⟨hb10, hb1len, hval1⟩ := readPair_ok hr1
                  rw [hval, hval1]
                  exact pmVal_mono hs (by omega) hb1len
                exact LBnd_mono (ExtQ.fin_ble_fin.mpr (sub_le_sub_right hle q))
                  (ihrest.2 pv1 hr1)
              | error e =>
                cases w with
                | zero =>
                  rw [finishRight] at hrest
                  cases Except.ok.inj hrest
                  exact fun y hy => absurd hy (List.not_mem_nil y)
                | succ w2 =>
                  rw [finishRight, if_pos hb1, hr1] at hrest
                  exact absurd hrest (by simp)
            · rw [finishRight_pad hb1 w] at hrest
              cases Except.ok.inj hrest
              intro y hy
              rw [List.eq_of_mem_replicate hy]
              exact ExtQ.ble_posInf _
          refine ⟨List.sorted_cons.mpr ⟨fun y hy => hLB y hy, ihrest.1⟩, ?_⟩
          intro pv hpv
          cases Except.ok.inj hpv
          intro y hy
          rcases List.mem_cons.mp hy with rfl | hy2
          · exact ExtQ.ble_refl _
          · exact hLB y hy2
    · rw [finishRight_pad hb (w+1)] at h
      cases Except.ok.inj h
      refine ⟨sorted_replicate _ _ _ (mLE_refl _ _), ?_⟩
      intro pv _ y hy
      rw [List.eq_of_mem_replicate hy]
      exact ExtQ.ble_posInf _

theorem finishLeft_sorted {xs : List ℚ} {pm : List Nat} {q : ℚ} (hs : permSorted xs pm) :
    ∀ (w : Nat) (a : Int) (l : List (ExtQ × Int)),
      finishLeft xs pm q w a = .ok l →
      List.Sorted (pairLE .l2) l ∧
        ∀ pv : Nat × ℚ, readPair xs pm a = .ok pv → LBnd (ExtQ.fin (q - pv.2)) l := by
  intro w
  induction w with
  | zero =>
    intro a l h
    rw [finishLeft] at h
    cases Except.ok.inj h
    exact ⟨List.sorted_nil, fun pv _ y hy => absurd hy (List.not_mem_nil y)⟩
  | succ w ih =>
    intro a l h
    by_cases ha : 0 ≤ a
    · rw [finishLeft, if_pos ha] at h
      cases hr : readPair xs pm a with
      | error e =>
        rw [hr] at h
        exact absurd h (by simp)
      | ok pv0 =>
        rw [hr] at h
        dsimp only [] at h
        cases hrest : finishLeft xs pm q w (a-1) with
        | error e =>
          rw [hrest] at h
          exact absurd h (by simp)
        | ok rest =>
          rw [hrest] at h
          dsimp only [] at h
          cases Except.ok.inj h
          obtain ⟨ha0, halen, hval⟩ := readPair_ok hr
          have ihrest := ih (a-1) rest hrest
          have hLB : LBnd (ExtQ.fin (q - pv0.2)) rest := by
            by_cases ha1 : 0 ≤ a - 1
            · cases hr1 : readPair xs pm (a-1) with
              | ok pv1 =>
                have hle : pv1.2 ≤ pv0.2 := by
                  obtain ⟨ha10, ha1len, hval1⟩ := readPair_ok hr1
                  rw [hval, hval1]
                  exact pmVal_mono hs (by omega) halen
                exact LBnd_mono (ExtQ.fin_ble_fin.mpr (sub_le_sub_left hle q))
                  (ihrest.2 pv1 hr1)
              | error e =>
                cases w with
                | zero =>
                  rw [finishLeft] at hrest
                  cases Except.ok.inj hrest
                  exact fun y hy => absurd hy (List.not_mem_nil y)
                | succ w2 =>
                  rw [finishLeft, if_pos ha1, hr1] at hrest
                  exact absurd hrest (by simp)
            · rw [finishLeft_pad ha1 w] at hrest
              cases Except.ok.inj hrest
              intro y hy
              rw [List.eq_of_mem_replicate hy]
              exact ExtQ.ble_posInf _
          refine ⟨List.sorted_cons.mpr ⟨fun y hy => hLB y hy, ihrest.1⟩, ?_⟩
          intro pv hpv
          cases Except.ok.inj hpv
          intro y hy
          rcases List.mem_cons.mp hy with rfl | hy2
          · exact ExtQ.ble_refl _
          · exact hLB y hy2
    · rw [finishLeft_pad ha (w+1)] at h
      cases Except.ok.inj h
      refine ⟨sorted_replicate _ _ _ (mLE_refl _ _), ?_⟩
      intro pv _ y hy
      rw [List.eq_of_mem_replicate hy]
      exact ExtQ.ble_posInf _

theorem expandLoop_sorted {xs : List ℚ} {pm : List Nat} {q : ℚ} (hs : permSorted xs pm) :
    ∀ (w : Nat) (a b : Int) (l : List (ExtQ × Int)),
      expandLoop xs pm q w a b = .ok l →
      List.Sorted (pairLE .l2) l ∧
        ∀ (pl pr : Nat × ℚ), readPair xs pm a = .ok pl → readPair xs pm b = .ok pr →
          LBnd (ExtQ.fin (min (q - pl.2) (pr.2 - q))) l := by
  intro w
  induction w with
  | zero =>
    intro a b l h
    rw [expandLoop] at h
    cases Except.ok.inj h
    exact ⟨List.sorted_nil, fun pl pr _ _ y hy => absurd hy (List.not_mem_nil y)⟩
  | succ w ih =>
    intro a b l h
    rw [expandLoop] at h
    cases hpl : readPair xs pm a with
    | error e =>
      rw [hpl] at h
      exact absurd h (by simp)
    | ok pl0 =>
      rw [hpl] at h
      dsimp only [] at h
      cases hpr : readPair xs pm b with
      | error e =>
        rw [hpr] at h
        exact absurd h (by simp)
      | ok pr0 =>
        rw [hpr] at h
        dsimp only [] at h
        obtain ⟨ha0, halen, hvala⟩ := readPair_ok hpl
        obtain ⟨hb0, hblen, hvalb⟩ := readPair_ok hpr
        by_cases hcmp : q - pl0.2 < pr0.2 - q
        · rw [if_pos hcmp] at h
          by_cases hend : a - 1 < 0
          · rw [if_pos hend] at h
            cases hrest : finishRight xs pm q w b with
            | error e =>
              rw [hrest] at h
              exact absurd h (by simp)
            | ok rest =>
              rw [hrest] at h
              dsimp only [] at h
              cases Except.ok.inj h
              have hfr := finishRight_sorted hs w b rest hrest
              have hLB : LBnd (ExtQ.fin (q - pl0.2)) rest :=
                LBnd_mono (ExtQ.fin_ble_fin.mpr (le_of_lt hcmp)) (hfr.2 pr0 hpr)
              refine ⟨List.sorted_cons.mpr ⟨fun y hy => hLB y hy, hfr.1⟩, ?_⟩
              intro pl pr hpl2 hpr2
              cases Except.ok.inj hpl2
              cases Except.ok.inj hpr2
              intro y hy
              rcases List.mem_cons.mp hy with rfl | hy2
              · exact ExtQ.fin_ble_fin.mpr (min_le_left _ _)
              · exact ExtQ.ble_trans (ExtQ.fin_ble_fin.mpr (min_le_left _ _)) (hLB y hy2)
          · rw [if_neg hend] at h
            cases hrest : expandLoop xs pm q w (a-1) b with
            | error e =>
              rw [hrest] at h
              exact absurd h (by simp)
            | ok rest =>
              rw [hrest] at h
              dsimp only [] at h
              cases Except.ok.inj h
              have ihr := ih (a-1) b rest hrest
              have hLB : LBnd (ExtQ.fin (q - pl0.2)) rest := by
                cases hpl1 : readPair xs pm (a-1) with
                | ok pl1 =>
                  obtain ⟨ha10, ha1len, hvala1⟩ := readPair_ok hpl1
                  have hle : pl1.2 ≤ pl0.2 := by
                    rw [hvala, hvala1]
                    exact pmVal_mono hs (by omega) halen
                  have hmin : q - pl0.2 ≤ min (q - pl1.2) (pr0.2 - q) :=
                    le_min (sub_le_sub_left hle q) (le_of_lt hcmp)
                  exact LBnd_mono (ExtQ.fin_ble_fin.mpr hmin) (ihr.2 pl1 pr0 hpl1 hpr)
                | error e =>
                  cases w with
                  | zero =>
                    rw [expandLoop] at hrest
                    cases Except.ok.inj hrest
                    exact fun y hy => absurd hy (List.not_mem_nil y)
                  | succ w2 =>
                    rw [expandLoop, hpl1] at hrest
                    exact absurd hrest (by simp)
              refine ⟨List.sorted_cons.mpr ⟨fun y hy => hLB y hy, ihr.1⟩, ?_⟩
              intro pl pr hpl2 hpr2
              cases Except.ok.inj hpl2
              cases Except.ok.inj hpr2
              intro y hy
              rcases List.mem_cons.mp hy with rfl | hy2
              · exact ExtQ.fin_ble_fin.mpr (min_le_left _ _)
              · exact ExtQ.ble_trans (ExtQ.fin_ble_fin.mpr (min_le_left _ _)) (hLB y hy2)
        · rw [if_neg hcmp] at h
          have hge : pr0.2 - q ≤ q - pl0.2 := le_of_not_lt hcmp
          by_cases hend : (xs.length : Int) ≤ b + 1
          · rw [if_pos hend] at h
            cases hrest : finishLeft xs pm q w a with
            | error e =>
              rw [hrest] at h
              exact absurd h (by simp)
            | ok rest =>
              rw [hrest] at h
              dsimp only [] at h
              cases Except.ok.inj h
              have hfl := finishLeft_sorted hs w a rest hrest
              have hLB : LBnd (ExtQ.fin (pr0.2 - q)) rest :=
                LBnd_mono (ExtQ.fin_ble_fin.mpr hge) (hfl.2 pl0 hpl)
              refine ⟨List.sorted_cons.mpr ⟨fun y hy => hLB y hy, hfl.1⟩, ?_⟩
              intro pl pr hpl2 hpr2
              cases Except.ok.inj hpl2
              cases Except.ok.inj hpr2
              intro y hy
              rcases List.mem_cons.mp hy with rfl | hy2
              · exact ExtQ.fin_ble_fin.mpr (min_le_right _ _)
              · exact ExtQ.ble_trans (ExtQ.fin_ble_fin.mpr (min_le_right _ _)) (hLB y hy2)
          · rw [if_neg hend] at h
            cases hrest : expandLoop xs pm q w a (b+1) with
            | error e =>
              rw [hrest] at h
              exact absurd h (by simp)
            | ok rest =>
              rw [hrest] at h
              dsimp only [] at h
              cases Except.ok.inj h
              have ihr := ih a (b+1) rest hrest
              have hLB : LBnd (ExtQ.fin (pr0.2 - q)) rest := by
                cases hpr1 : readPair xs pm (b+1) with
                | ok pr1 =>
                  obtain ⟨hb10, hb1len, hvalb1⟩ := readPair_ok hpr1
                  have hle : pr0.2 ≤ pr1.2 := by
                    rw [hvalb, hvalb1]
                    exact pmVal_mono hs (by omega) hb1len
                  have hmin : pr0.2 - q ≤ min (q - pl0.2) (pr1.2 - q) :=
                    le_min hge (sub_le_sub_right hle q)
                  exact LBnd_mono (ExtQ.fin_ble_fin.mpr hmin) (ihr.2 pl0 pr1 hpl hpr1)
                | error e =>
                  cases w with
                  | zero =>
                    rw [expandLoop] at hrest
                    cases Except.ok.inj hrest
                    exact fun y hy => absurd hy (List.not_mem_nil y)
                  | succ w2 =>
                    rw [expandLoop, hpl] at hrest
                    dsimp only [] at hrest
                    rw [hpr1] at hrest
                    exact absurd hrest (by simp)
              refine ⟨List.sorted_cons.mpr ⟨fun y hy => hLB y hy, ihr.1⟩, ?_⟩
              intro pl pr hpl2 hpr2
              cases Except.ok.inj hpl2
              cases Except.ok.inj hpr2
              intro y hy
              rcases List.mem_cons.mp hy with rfl | hy2
              · exact ExtQ.fin_ble_fin.mpr (min_le_right _ _)
              · exact ExtQ.ble_trans (ExtQ.fin_ble_fin.mpr (min_le_right _ _)) (hLB y hy2)

theorem flat1D_searchQuery_sorted {xs : List ℚ} {pm : List Nat} {q : ℚ} {k : Nat}
    {l : List (ExtQ × Int)} (hs : permSorted xs pm)
    (h : IndexFlat1D.searchQuery xs pm k q = .ok l) :
    List.Sorted (pairLE .l2) l := by
  unfold IndexFlat1D.searchQuery at h
  cases h0 : readPair xs pm 0 with
  | error e =>
    rw [h0] at h
    exact absurd h (by simp)
  | ok pv0 =>
    rw [h0] at h
    dsimp only [] at h
    by_cases hq : q < pv0.2
    · rw [if_pos hq] at h
      exact (finishRight_sorted hs k 0 l h).1
    · rw [if_neg hq] at h
      cases hl : readPair xs pm ((xs.length : Int) - 1) with
      | error e =>
        rw [hl] at h
        exact absurd h (by simp)
      | ok pvl =>
        rw [hl] at h
        dsimp only [] at h
        by_cases hq2 : pvl.2 ≤ q
        · rw [if_pos hq2] at h
          exact (finishLeft_sorted hs k _ l h).1
        · rw [if_neg hq2] at h
          cases hbs : bsearchLoop xs pm q xs.length 0 (xs.length : Int) with
          | error e =>
            rw [hbs] at h
            exact absurd h (by simp)
          | ok ab =>
            rw [hbs] at h
            dsimp only [] at h
            exact (expandLoop_sorted hs k ab.1 ab.2 l h).1

theorem exceptAll_mem {σ β : Type} {f : σ → Except SearchErr β} :
    ∀ {l : List σ} {ys : List β}, exceptAll f l = .ok ys →
      ∀ y ∈ ys, ∃ x ∈ l, f x = .ok y := by
  intro l
  induction l with
  | nil =>
    intro ys h y hy
    rw [exceptAll] at h
    cases Except.ok.inj h
    exact absurd hy (List.not_mem_nil y)
  | cons a r ih =>
    intro ys h y hy
    rw [exceptAll] at h
    cases hfa : f a with
    | error e =>
      rw [hfa] at h
      exact absurd h (by simp)
    | ok b =>
      rw [hfa] at h
      cases hrest : exceptAll f r with
      | error e =>
        rw [hrest] at h
        exact absurd h (by simp)
      | ok ys2 =>
        rw [hrest] at h
        dsimp only [] at h
        cases Except.ok.inj h
        rcases List.mem_cons.mp hy with rfl | hy2
        · exact ⟨a, List.mem_cons_self a r, hfa⟩
        · rcases ih hrest y hy2 with ⟨x, hx, hfx⟩
          exact ⟨x, List.mem_cons_of_mem a hx, hfx⟩

theorem refine_searchQuery_ok_sorted {assertsOn : Bool} {m : Metric} {tr : Bool}
    {nt : Nat} {store : List (List ℚ)} {kf : ℚ} {bs : Nat → List (ExtQ × Int)}
    {k : Nat} {x : List ℚ} {rout : List (ExtQ × Int)}
    (h : IndexRefineFlat.searchQuery assertsOn m tr nt store kf bs k x = .ok rout) :
    List.Sorted (pairLE m) rout := by
  unfold IndexRefineFlat.searchQuery at h
  split at h
  · exact absurd h (by simp)
  · dsimp only [] at h
    split at h
    · exact absurd h (by simp)
    · cases Except.ok.inj h
      exact sorted_reorder2heaps m k _

theorem flat1D_search_ok_sorted {s : IndexFlat1D} {k : Nat} {qs : List ℚ}
    {outs : List (List (ExtQ × Int))} (hperm : permSorted s.xb s.perm)
    (h : IndexFlat1D.search s k qs = .ok outs) :
    ∀ out ∈ outs, List.Sorted (pairLE .l2) out := by
  unfold IndexFlat1D.search at h
  split at h
  · exact absurd h (by simp)
  · intro out hout
    rcases exceptAll_mem h out hout with ⟨x, hx, hfx⟩
    exact flat1D_searchQuery_sorted hperm hfx

/-! ### Claim C2 -/

theorem staleState_eq : staleState = ⟨[1, 7], [1, 0], false⟩ := by
  norm_num [staleState, IndexFlat1D.add, IndexFlat1D.update_permutation,
    IndexFlat1D.remove_ids, IndexFlat.removeIds, removeIdsGo, argsortVals,
    List.insertionSort, List.orderedInsert]

/-- C2 as stated is false: the 1-D index can be driven (add, sort, remove all,
re-add) into a reachable state whose permutation has the right size but is
stale; search proceeds and returns a result slice whose L2 distances are
decreasing. -/
theorem claim_C2_counterexample :
    IndexFlat1D.search staleState 2 [0] = .ok [[(ExtQ.fin 7, 1), (ExtQ.fin 1, 0)]] ∧
    ¬ orderedByMetric .l2 [(ExtQ.fin 7, 1), (ExtQ.fin 1, 0)] := by
  constructor
  · rw [staleState_eq]
    norm_num [IndexFlat1D.search, IndexFlat1D.searchQuery, exceptAll, readPair, finishRight]
  · intro hord
    have h2 := List.rel_of_sorted_cons hord (ExtQ.fin 1) (by simp [distsOf])
    rw [ExtQ.fin_ble_fin] at h2
    norm_num at h2

/-- C2 (amended): result slices are ordered best-to-worst under the metric
polarity — unconditionally for FlatIndex search and for every successful
RefineIndex search, and for every successful SortedAxisIndex search whose
permutation actually sorts the current store (the spec's `Sorted` state); a
search that proceeds on a stale same-size permutation is exempted, as it can
return unordered slices. -/
theorem claim_C2_amended (m : Metric) (xb : List (List ℚ)) (k : Nat) (x : List ℚ)
    (assertsOn : Bool) (m2 : Metric) (tr : Bool) (nt : Nat) (store : List (List ℚ))
    (kf : ℚ) (bs : Nat → List (ExtQ × Int)) (k2 : Nat) (x2 : List ℚ)
    (rout : List (ExtQ × Int)) (s : IndexFlat1D) (k3 : Nat) (qs : List ℚ)
    (outs : List (List (ExtQ × Int)))
    (hr : IndexRefineFlat.searchQuery assertsOn m2 tr nt store kf bs k2 x2 = .ok rout)
    (hperm : permSorted s.xb s.perm)
    (h1d : IndexFlat1D.search s k3 qs = .ok outs) :
    orderedByMetric m (IndexFlat.searchQuery m xb k x) ∧
    orderedByMetric m2 rout ∧
    ∀ out ∈ outs, orderedByMetric .l2 out := by
  refine ⟨orderedByMetric_of_sorted _ _ (sorted_searchQuery m xb k x),
    orderedByMetric_of_sorted _ _ (refine_searchQuery_ok_sorted hr), ?_⟩
  intro out hout
  exact orderedByMetric_of_sorted _ _ (flat1D_search_ok_sorted hperm h1d out hout)

theorem claim_C2_amended_witness :
    orderedByMetric .l2 (IndexFlat.searchQuery .l2 [[1]] 1 [1]) ∧
    orderedByMetric .l2 [(ExtQ.fin 0, 0)] ∧
    ∀ out ∈ [[(ExtQ.fin 0, (0 : Int))]], orderedByMetric .l2 out := by
  refine claim_C2_amended .l2 [[1]] 1 [1] false .l2 true 1 [[1]] 1
    (fun _ => [(ExtQ.fin 0, 0)]) 1 [1] [(ExtQ.fin 0, 0)] ⟨[5], [0], false⟩ 1 [5]
    [[(ExtQ.fin 0, 0)]] ?_ ?_ ?_
  · norm_num [IndexRefineFlat.searchQuery, kBaseOf, ratTrunc, reorder2heaps,
      List.insertionSort, List.orderedInsert, compute_distance_one, metricVal,
      l2sqr]
  · simp [permSorted]
  · norm_num [IndexFlat1D.search, IndexFlat1D.searchQuery, exceptAll, readPair,
      finishLeft]

/-! ### Claim C3 -/

/-- C3: on the empty store (a vacuously `Sorted` state, `perm.size == ntotal`
holds as 0 == 0) the search dereferences `perm[0]` out of bounds instead of
padding the k output slots; for a nonempty store with ntotal < k the leading
slots do carry the stored vectors and the trailing ones the -1/+inf padding. -/
theorem claim_C3_bug :
    IndexFlat1D.search ⟨[], [], false⟩ 1 [0] = .error .oobAccess ∧
    IndexFlat1D.search ⟨[5], [0], false⟩ 3 [10] =
      .ok [[(ExtQ.fin 5, 0), (ExtQ.posInf, -1), (ExtQ.posInf, -1)]] := by
  constructor <;>
    norm_num [IndexFlat1D.search, IndexFlat1D.searchQuery, exceptAll, readPair,
      finishLeft]

/-! ### Claim C8 -/

/-- C8 is false as stated: populating the 1-D index with [5,1,3] and searching
q = 4, k = 2 returns labels [0, 2] (the right-frontier candidate, label 0 with
value 5, wins the exact tie and is emitted first), not [2, 0]. -/
theorem claim_C8_counterexample :
    IndexFlat1D.search (IndexFlat1D.add ⟨[], [], true⟩ [5, 1, 3]) 2 [4]
      ≠ .ok [[(ExtQ.fin 1, 2), (ExtQ.fin 1, 0)]] := by
  have heval : IndexFlat1D.search (IndexFlat1D.add ⟨[], [], true⟩ [5, 1, 3]) 2 [4]
      = .ok [[(ExtQ.fin 1, 0), (ExtQ.fin 1, 2)]] := by
    norm_num [IndexFlat1D.add, IndexFlat1D.update_permutation, argsortVals,
      List.insertionSort, List.orderedInsert, IndexFlat1D.search,
      IndexFlat1D.searchQuery, exceptAll, readPair, bsearchLoop, expandLoop,
      finishLeft, Int.toNat]
  rw [heval]
  simp

/-- C8 (amended): the tie-break is as the claim describes — `q - xleft <
xright - q` fails on an exact tie, so the right-frontier candidate is emitted
first — hence on [5,1,3], q=4, k=2 the output is labels [0, 2] with distances
[1, 1]. -/
theorem claim_C8_amended :
    IndexFlat1D.search (IndexFlat1D.add ⟨[], [], true⟩ [5, 1, 3]) 2 [4]
      = .ok [[(ExtQ.fin 1, 0), (ExtQ.fin 1, 2)]] := by
  norm_num [IndexFlat1D.add, IndexFlat1D.update_permutation, argsortVals,
    List.insertionSort, List.orderedInsert, IndexFlat1D.search,
    IndexFlat1D.searchQuery, exceptAll, readPair, bsearchLoop, expandLoop,
    finishLeft, Int.toNat]

/-! ### Claims C4 and C10 -/

theorem removeIdsGo_eq_filter {α : Type} (sel : Nat → Bool) :
    ∀ (xs : List α) (n : Nat),
      removeIdsGo sel n xs = ((xs.enumFrom n).filter (fun p => ! sel p.1)).map Prod.snd := by
  intro xs
  induction xs with
  | nil =>
    intro n
    simp [removeIdsGo]
  | cons v r ih =>
    intro n
    rw [removeIdsGo]
    by_cases hv : sel n
    · rw [if_pos hv]
      simp [List.enumFrom, List.filter_cons, hv, ih (n+1)]
    · rw [if_neg hv]
      simp [List.enumFrom, List.filter_cons, hv, ih (n+1)]

theorem length_filter_partition {α : Type} (p : α → Bool) (l : List α) :
    (l.filter p).length + (l.filter (fun a => ! p a)).length = l.length := by
  induction l with
  | nil => simp
  | cons a r ih =>
    by_cases h : p a <;> simp [List.filter_cons, h] <;> omega

/-- C4: remove_ids keeps exactly the vectors whose labels do not satisfy the
predicate, in their original relative order (the left-to-right compaction is
the positional filter), sets the store/ntotal to the kept vectors, and returns
the number of removed ones; concretely, removing label 1 from the 3-vector
store leaves vectors 0 and 2 in that order and returns 1. -/
theorem claim_C4 (sel : Int → Bool) (xb : List (List ℚ)) :
    (IndexFlat.removeIds sel xb).1
        = (xb.enum.filter (fun p => ! sel (p.1 : Int))).map Prod.snd ∧
    (IndexFlat.removeIds sel xb).1.length + (IndexFlat.removeIds sel xb).2 = xb.length ∧
    (IndexFlat.removeIds sel xb).2
        = (xb.enum.filter (fun p => sel (p.1 : Int))).length ∧
    IndexFlat.removeIds (fun i => i == 1) [[0, 0], [2, 0], [0, 3]]
        = ([[0, 0], [0, 3]], 1) := by
  have hkept : (IndexFlat.removeIds sel xb).1
      = (xb.enum.filter (fun p => ! sel (p.1 : Int))).map Prod.snd :=
    removeIdsGo_eq_filter (fun i => sel (i : Int)) xb 0
  have hlen : (xb.enum.filter (fun p => ! sel (p.1 : Int))).length ≤ xb.length := by
    calc (xb.enum.filter (fun p => ! sel (p.1 : Int))).length
        ≤ xb.enum.length := List.length_filter_le _ _
      _ = xb.length := List.enum_length
  have hpart := length_filter_partition (fun p : Nat × List ℚ => sel (p.1 : Int)) xb.enum
  have henum : xb.enum = xb.enumFrom 0 := rfl
  have h2 : (removeIdsGo (fun i => sel (i : Int)) 0 xb).length
      = (xb.enum.filter (fun p => ! sel (p.1 : Int))).length := by
    rw [removeIdsGo_eq_filter, List.length_map, henum]
  refine ⟨hkept, ?_, ?_, ?_⟩
  · rw [hkept]
    simp only [IndexFlat.removeIds, List.length_map]
    omega
  · simp only [IndexFlat.removeIds]
    rw [List.enum_length] at hpart
    omega
  · norm_num [IndexFlat.removeIds, removeIdsGo]

theorem countSelFrom_le (sel : Nat → Bool) : ∀ (l s : Nat), countSelFrom sel s l ≤ l := by
  intro l
  induction l with
  | zero =>
    intro s
    simp [countSelFrom]
  | succ l ih =>
    intro s
    rw [countSelFrom]
    have := ih (s+1)
    split <;> omega

theorem removeIdsGo_get? {α : Type} (sel : Nat → Bool) :
    ∀ (xs : List α) (n i : Nat), i < xs.length → sel (n + i) = false →
      (removeIdsGo sel n xs).get? (i - countSelFrom sel n i) = xs.get? i := by
  intro xs
  induction xs with
  | nil =>
    intro n i hi
    simp at hi
  | cons v r ih =>
    intro n i hi hsel
    cases i with
    | zero =>
      rw [removeIdsGo, if_neg (by simpa using hsel)]
      simp [countSelFrom]
    | succ j =>
      rw [removeIdsGo]
      have hsel2 : sel ((n+1) + j) = false := by
        rw [show (n+1)+j = n + (j+1) by omega]
        exact hsel
      have hdone := ih (n+1) j (by simpa using hi) hsel2
      by_cases hv : sel n
      · rw [if_pos hv]
        have hc : countSelFrom sel n (j+1) = 1 + countSelFrom sel (n+1) j := by
          simp [countSelFrom, hv]
        rw [hc, show j + 1 - (1 + countSelFrom sel (n+1) j)
          = j - countSelFrom sel (n+1) j by omega]
        rw [List.get?_cons_succ]
        exact hdone
      · rw [if_neg hv]
        have hc : countSelFrom sel n (j+1) = countSelFrom sel (n+1) j := by
          simp [countSelFrom, hv]
        have hcle := countSelFrom_le sel j (n+1)
        rw [hc, show j + 1 - countSelFrom sel (n+1) j
          = (j - countSelFrom sel (n+1) j) + 1 by omega]
        rw [List.get?_cons_succ, List.get?_cons_succ]
        exact hdone

/-- C10: after remove_ids a kept vector that had label i is stored at the new
position i minus the number of removed labels below i, and reconstruct at that
new contiguous label returns exactly the vector that label i denoted before
the removal — labels are storage positions, not stable identifiers. -/
theorem claim_C10 (sel : Int → Bool) (xb : List (List ℚ)) (i : Nat)
    (hi : i < xb.length) (hkeep : sel (i : Int) = false) :
    IndexFlat.reconstruct (IndexFlat.removeIds sel xb).1
        (i - countSelFrom (fun j => sel (j : Int)) 0 i)
      = IndexFlat.reconstruct xb i := by
  unfold IndexFlat.reconstruct IndexFlat.removeIds
  exact removeIdsGo_get? (fun j => sel (j : Int)) xb 0 i hi (by simpa using hkeep)

theorem claim_C10_witness :
    IndexFlat.reconstruct
        (IndexFlat.removeIds (fun i => i == 1) [[0, 0], [2, 0], [0, 3]]).1
        (2 - countSelFrom (fun j => ((j : Int) == 1)) 0 2)
      = IndexFlat.reconstruct [[0, 0], [2, 0], [0, 3]] 2 :=
  claim_C10 (fun i => i == 1) [[0, 0], [2, 0], [0, 3]] 2 (by norm_num) (by decide)

/-! ### Claim C5 -/

/-- C5 is false as stated: with k = 1 and k_factor = 1.5 the code computes
`idx_t(1 * 1.5) = 1` coarse candidates while round(1 * 1.5) = 2. -/
theorem claim_C5_counterexample :
    kBaseOf 1 (3/2) = 1 ∧ round ((1 : ℚ) * (3/2)) = 2 := by
  constructor
  · norm_num [kBaseOf, ratTrunc, Int.tdiv]
  · rw [one_mul, round_eq]
    norm_num

theorem ratTrunc_eq_floor {q : ℚ} (hq : 0 ≤ q) : ratTrunc q = ⌊q⌋ := by
  rw [ratTrunc, Rat.floor_def]
  exact Int.tdiv_eq_ediv (Rat.num_nonneg.mpr hq) (Int.natCast_nonneg _)

/-- C5 (amended): the number of coarse candidates per query is
`k_base = idx_t(k * k_factor)` — the product truncated toward zero, which for
the nonnegative products that occur is the floor, not the nearest integer —
and the rerank pipeline consumes exactly the base results fetched at that
count. -/
theorem claim_C5_amended (k : Nat) (kf : ℚ) (hkf : 0 ≤ kf) (m : Metric) (nt : Nat)
    (store : List (List ℚ)) (bs : Nat → List (ExtQ × Int)) (x : List ℚ) :
    (kBaseOf k kf : Int) = ⌊(k : ℚ) * kf⌋ ∧
    IndexRefineFlat.searchQuery false m true nt store kf bs k x
      = .ok (reorder2heaps m k ((bs (kBaseOf k kf)).map
          (fun p => (compute_distance_one m store x p.2, p.2)))) := by
  constructor
  · have h0 : (0:ℚ) ≤ (k : ℚ) * kf := mul_nonneg (by positivity) hkf
    rw [kBaseOf, ratTrunc_eq_floor h0]
    exact Int.toNat_of_nonneg (Int.le_floor.mpr (by simpa using h0))
  · simp [IndexRefineFlat.searchQuery]

theorem claim_C5_amended_witness :
    (0:ℚ) ≤ 3/2 ∧ (kBaseOf 1 (3/2) : Int) = ⌊(1 : ℚ) * (3/2)⌋ :=
  ⟨by norm_num,
   (claim_C5_amended 1 (3/2) (by norm_num) .l2 0 [] (fun _ => []) []).1⟩

/-! ### Claim C6 -/

/-- C6 is false as stated: with assertions compiled out (a release build), a
coarse label of 5 — far outside [-1, ntotal) for ntotal = 1 — is silently
accepted: no error is raised and a full result is returned. -/
theorem claim_C6_counterexample :
    IndexRefineFlat.searchQuery false .l2 true 1 [[0]] 1
        (fun _ => [(ExtQ.fin 0, 5)]) 1 [0]
      = .ok [(ExtQ.fin 0, 5)] := by
  norm_num [IndexRefineFlat.searchQuery, kBaseOf, ratTrunc, compute_distance_one,
    metricVal, l2sqr, reorder2heaps, List.insertionSort, List.orderedInsert,
    Int.toNat]

/-- C6 (amended): the label-range validation is a plain C `assert`: in builds
with assertions compiled in, any coarse label outside [-1, ntotal) aborts the
search (modelled as an assertViolation error); in builds with assertions
compiled out the check is skipped entirely (see the counterexample). -/
theorem claim_C6_amended (m : Metric) (nt : Nat) (store : List (List ℚ)) (kf : ℚ)
    (bs : Nat → List (ExtQ × Int)) (k : Nat) (x : List ℚ) (p : ExtQ × Int)
    (hp : p ∈ bs (kBaseOf k kf)) (hbad : p.2 < -1 ∨ (nt : Int) ≤ p.2) :
    IndexRefineFlat.searchQuery true m true nt store kf bs k x
      = .error .assertViolation := by
  unfold IndexRefineFlat.searchQuery
  rw [if_neg (by simp)]
  dsimp only []
  rw [if_pos]
  refine ⟨rfl, ?_⟩
  intro hall
  have h2 := List.all_eq_true.mp hall p hp
  simp only [Bool.and_eq_true, decide_eq_true_eq] at h2
  rcases hbad with hb | hb
  · omega
  · omega

theorem claim_C6_amended_witness :
    ((ExtQ.fin 0, (5 : Int)) ∈ (fun _ : Nat => [(ExtQ.fin 0, (5 : Int))]) (kBaseOf 1 1) ∧
      ((5 : Int) < -1 ∨ ((1 : Nat) : Int) ≤ 5)) ∧
    IndexRefineFlat.searchQuery true .l2 true 1 [[0]] 1
        (fun _ => [(ExtQ.fin 0, 5)]) 1 [0]
      = .error .assertViolation :=
  ⟨⟨by simp, Or.inr (by norm_num)⟩,
   claim_C6_amended .l2 1 [[0]] 1 (fun _ => [(ExtQ.fin 0, 5)]) 1 [0]
     (ExtQ.fin 0, 5) (by simp) (Or.inr (by norm_num))⟩

/-! ### Claim C7 -/

/-- C7 is false as stated: `staleState` is reachable through the public
operations (add, update_permutation, remove_ids, add), is Dirty — its
permutation no longer sorts the store — yet search proceeds without an
InvariantViolation and returns a (wrong) result. -/
theorem claim_C7_counterexample :
    ¬ permSorted staleState.xb staleState.perm ∧
    IndexFlat1D.search staleState 2 [0]
      = .ok [[(ExtQ.fin 7, 1), (ExtQ.fin 1, 0)]] := by
  constructor
  · rw [staleState_eq]
    intro h
    have h2 := h
    simp only [permSorted, List.map_cons, List.map_nil] at h2
    norm_num [List.chain'_cons] at h2
  · rw [staleState_eq]
    norm_num [IndexFlat1D.search, IndexFlat1D.searchQuery, exceptAll, readPair,
      finishRight]

/-- C7 (amended): the only state check before searching is
`perm.size() == ntotal`: any state with mismatched sizes fails with an
InvariantViolation — in particular, adding at least one vector without
continuous update and without a permutation refresh makes the sizes differ,
so the subsequent search fails — but a stale permutation of matching size is
not detected (see the counterexample). -/
theorem claim_C7_amended (s t : IndexFlat1D) (k k2 : Nat) (qs qs2 : List ℚ)
    (vs : List ℚ) (hmis : s.perm.length ≠ s.xb.length)
    (ht : t.perm.length = t.xb.length) (hcu : t.continuousUpdate = false)
    (hvs : vs ≠ []) :
    IndexFlat1D.search s k qs = .error .invariantViolation ∧
    IndexFlat1D.search (t.add vs) k2 qs2 = .error .invariantViolation := by
  constructor
  · simp [IndexFlat1D.search, hmis]
  · have hmis2 : (t.add vs).perm.length ≠ (t.add vs).xb.length := by
      have hpos := List.length_pos.mpr hvs
      simp only [IndexFlat1D.add, hcu, Bool.false_eq_true, if_false,
        List.length_append, ht]
      omega
    simp [IndexFlat1D.search, hmis2]

theorem claim_C7_amended_witness :
    IndexFlat1D.search ⟨[1], [], false⟩ 1 [0] = .error .invariantViolation ∧
    IndexFlat1D.search (IndexFlat1D.add ⟨[5], [0], false⟩ [3]) 1 [0]
      = .error .invariantViolation :=
  claim_C7_amended ⟨[1], [], false⟩ ⟨[5], [0], false⟩ 1 1 [0] [0] [3]
    (by decide) (by decide) (by decide) (by simp)

/-! ### Claim C9 -/

theorem applyAll_inv : ∀ (ops : List RefineOp) (s s2 : IndexRefineFlat),
    s.base.store = s.refineStore → s.ntotal = s.refineStore.length →
    IndexRefineFlat.applyAll s ops = .ok s2 →
    s2.base.store = s2.refineStore ∧ s2.ntotal = s2.refineStore.length := by
  intro ops
  induction ops with
  | nil =>
    intro s s2 h1 h2 h
    rw [IndexRefineFlat.applyAll] at h
    cases Except.ok.inj h
    exact ⟨h1, h2⟩
  | cons op r ih =>
    intro s s2 h1 h2 h
    rw [IndexRefineFlat.applyAll] at h
    cases op with
    | train vs =>
      dsimp only [IndexRefineFlat.apply] at h
      exact ih { s with base := s.base.train, isTrained := true } s2
        (by simpa [CoarseIndex.train] using h1) h2 h
    | add vs =>
      dsimp only [IndexRefineFlat.apply] at h
      by_cases htr : s.isTrained
      · rw [if_neg (by simp [htr])] at h
        dsimp only [] at h
        refine ih { base := s.base.add vs, refineStore := s.refineStore ++ vs, ntotal := (s.refineStore ++ vs).length, isTrained := s.isTrained } s2 ?_ rfl h
        simp only [CoarseIndex.add, h1]
      · rw [if_pos (by simp [htr])] at h
        exact absurd h (by simp)
    | reset =>
      dsimp only [IndexRefineFlat.apply] at h
      exact ih { base := s.base.reset, refineStore := [], ntotal := 0, isTrained := s.isTrained } s2 rfl rfl h

/-- C9: constructing a RefineIndex over a nonempty coarse index fails; add
fails when the composite is not trained; and after any sequence of
train/add/reset operations from a freshly constructed composite, the coarse
store, the internal exact store and `ntotal` agree — the two members are
populated in lockstep, so label i denotes the same vector in both. -/
theorem claim_C9 (b c : CoarseIndex) (s : IndexRefineFlat) (vs : List (List ℚ))
    (ops : List RefineOp) (s0 s2 : IndexRefineFlat)
    (hne : b.store ≠ [])
    (hun : s.isTrained = false)
    (hmk : IndexRefineFlat.make c = .ok s0)
    (hrun : IndexRefineFlat.applyAll s0 ops = .ok s2) :
    IndexRefineFlat.make b = .error .invariantViolation ∧
    s.apply (.add vs) = .error .invariantViolation ∧
    (s2.base.store = s2.refineStore ∧ s2.ntotal = s2.refineStore.length ∧
      s2.ntotal = s2.base.store.length) := by
  refine ⟨?_, ?_, ?_⟩
  · have : b.store.length ≠ 0 := by
      simpa [List.length_eq_zero] using hne
    simp [IndexRefineFlat.make, this]
  · simp [IndexRefineFlat.apply, hun]
  · unfold IndexRefineFlat.make at hmk
    by_cases hc : c.store.length ≠ 0
    · rw [if_pos hc] at hmk
      exact absurd hmk (by simp)
    · rw [if_neg hc] at hmk
      cases Except.ok.inj hmk
      have hinv := applyAll_inv ops _ s2
        (by simpa [List.length_eq_zero] using hc) rfl hrun
      exact ⟨hinv.1, hinv.2, by rw [hinv.1, hinv.2]⟩

theorem claim_C9_witness :
    IndexRefineFlat.make ⟨[[1]], true⟩ = .error .invariantViolation ∧
    IndexRefineFlat.apply ⟨⟨[], false⟩, [], 0, false⟩ (.add [[2]])
      = .error .invariantViolation ∧
    ((⟨⟨[[1], [2]], true⟩, [[1], [2]], 2, true⟩ : IndexRefineFlat).base.store
        = (⟨⟨[[1], [2]], true⟩, [[1], [2]], 2, true⟩ : IndexRefineFlat).refineStore ∧
      (⟨⟨[[1], [2]], true⟩, [[1], [2]], 2, true⟩ : IndexRefineFlat).ntotal
        = (⟨⟨[[1], [2]], true⟩, [[1], [2]], 2, true⟩ : IndexRefineFlat).refineStore.length ∧
      (⟨⟨[[1], [2]], true⟩, [[1], [2]], 2, true⟩ : IndexRefineFlat).ntotal
        = (⟨⟨[[1], [2]], true⟩, [[1], [2]], 2, true⟩ : IndexRefineFlat).base.store.length) :=
  claim_C9 ⟨[[1]], true⟩ ⟨[], true⟩ ⟨⟨[], false⟩, [], 0, false⟩ [[2]]
    [.train [], .add [[1], [2]]] ⟨⟨[], true⟩, [], 0, true⟩
    ⟨⟨[[1], [2]], true⟩, [[1], [2]], 2, true⟩
    (by simp) rfl rfl rfl
